import Mathlib

set_option maxRecDepth 100000
set_option maxHeartbeats 2000000

/-!
Shallow embedding of the append-only hash chain in `src/main.rs`.

Modelling conventions:
- Byte strings (Rust `String` / `&[u8]`) are `List Nat`, each entry a byte
  value; base64 output is ASCII, so its characters coincide with its bytes
  (the literal character `'0'` is byte 48, `'='` is byte 61).
- `DateTime<Utc>` values are represented by the bytes of their canonical
  `to_string` rendering, which is exactly how `hash_block` consumes them;
  the rendering is fixed at construction and never recomputed.
- `u64` nonces are `Nat`; hashing encodes the low 8 bytes little-endian
  (`u64::to_le_bytes`), so values agree with Rust for all nonces below 2^64.
- The unbounded `while` loop of `mine_block` is modelled with an explicit
  fuel parameter (`mineLoop`): `none` means the loop has not terminated
  within `fuel` iterations.
- The `unwrap()` inside `verify_chain` is modelled by the error value
  `Except.error none`: a result of `.error none` corresponds to a panic,
  `.error (some e)` to an `anyhow` error with context.
- SHA-256 and standard base64 are implemented in full (32-bit words as
  `Nat` reduced `% 2^32`), checked below against published test vectors.
-/

/-- Right rotation of a 32-bit word represented as a `Nat`. -/
def rotr (n x : Nat) : Nat := ((x >>> n) ||| (x <<< (32 - n))) % 4294967296

/-- Big-endian bytes of a 32-bit word. -/
def wordToBEBytes (w : Nat) : List Nat :=
  [w / 16777216 % 256, w / 65536 % 256, w / 256 % 256, w % 256]

/-- Fixed-width little-endian byte encoding, as in `u64::to_le_bytes`. -/
def toLEBytes : Nat → Nat → List Nat
  | 0, _ => []
  | k + 1, w => w % 256 :: toLEBytes k (w / 256)

/-- Fixed-width big-endian byte encoding (SHA-256 length field). -/
def toBEBytes : Nat → Nat → List Nat
  | 0, _ => []
  | k + 1, w => toBEBytes k (w / 256) ++ [w % 256]

/-- The 64 SHA-256 round constants. -/
def sha256K : List Nat :=
  [1116352408, 1899447441, 3049323471, 3921009573, 961987163, 1508970993,
   2453635748, 2870763221, 3624381080, 310598401, 607225278, 1426881987,
   1925078388, 2162078206, 2614888103, 3248222580, 3835390401, 4022224774,
   264347078, 604807628, 770255983, 1249150122, 1555081692, 1996064986,
   2554220882, 2821834349, 2952996808, 3210313671, 3336571891, 3584528711,
   113926993, 338241895, 666307205, 773529912, 1294757372, 1396182291,
   1695183700, 1986661051, 2177026350, 2456956037, 2730485921, 2820302411,
   3259730800, 3345764771, 3516065817, 3600352804, 4094571909, 275423344,
   430227734, 506948616, 659060556, 883997877, 958139571, 1322822218,
   1537002063, 1747873779, 1955562222, 2024104815, 2227730452, 2361852424,
   2428436474, 2756734187, 3204031479, 3329325298]

/-- The eight 32-bit working variables of the SHA-256 compression function. -/
structure HashState where
  a : Nat
  b : Nat
  c : Nat
  d : Nat
  e : Nat
  f : Nat
  g : Nat
  h : Nat

/-- SHA-256 initial hash value. -/
def initState : HashState :=
  ⟨1779033703, 3144134277, 1013904242, 2773480762,
   1359893119, 2600822924, 528734635, 1541459225⟩

/-- SHA-256 lowercase sigma-0. -/
def smallSigma0 (x : Nat) : Nat := rotr 7 x ^^^ rotr 18 x ^^^ (x >>> 3)

/-- SHA-256 lowercase sigma-1. -/
def smallSigma1 (x : Nat) : Nat := rotr 17 x ^^^ rotr 19 x ^^^ (x >>> 10)

/-- SHA-256 uppercase sigma-0. -/
def bigSigma0 (x : Nat) : Nat := rotr 2 x ^^^ rotr 13 x ^^^ rotr 22 x

/-- SHA-256 uppercase sigma-1. -/
def bigSigma1 (x : Nat) : Nat := rotr 6 x ^^^ rotr 11 x ^^^ rotr 25 x

/-- One SHA-256 round, consuming one `(constant, schedule word)` pair. -/
def roundStep (s : HashState) (kw : Nat × Nat) : HashState :=
  let ch := (s.e &&& s.f) ^^^ ((s.e ^^^ 4294967295) &&& s.g)
  let t1 := (s.h + bigSigma1 s.e + ch + kw.1 + kw.2) % 4294967296
  let maj := (s.a &&& s.b) ^^^ (s.a &&& s.c) ^^^ (s.b &&& s.c)
  let t2 := (bigSigma0 s.a + maj) % 4294967296
  ⟨(t1 + t2) % 4294967296, s.a, s.b, s.c, (s.d + t1) % 4294967296, s.e, s.f, s.g⟩

/-- Append one word of the SHA-256 message schedule. -/
def extendStep (ws : List Nat) : List Nat :=
  let n := ws.length
  ws ++ [(ws.getD (n - 16) 0 + smallSigma0 (ws.getD (n - 15) 0) + ws.getD (n - 7) 0 +
          smallSigma1 (ws.getD (n - 2) 0)) % 4294967296]

/-- Iterate `extendStep`; 48 steps grow the 16 chunk words to 64. -/
def extendN : Nat → List Nat → List Nat
  | 0, ws => ws
  | k + 1, ws => extendN k (extendStep ws)

/-- Group big-endian bytes into 32-bit words. -/
def bytesToWords : List Nat → List Nat
  | b0 :: b1 :: b2 :: b3 :: rest => (b0 * 16777216 + b1 * 65536 + b2 * 256 + b3) :: bytesToWords rest
  | _ => []

/-- SHA-256 compression of a single 64-byte chunk into the running state. -/
def compress (s : HashState) (chunk : List Nat) : HashState :=
  let ws := extendN 48 (bytesToWords chunk)
  let t := (sha256K.zip ws).foldl roundStep s
  ⟨(s.a + t.a) % 4294967296, (s.b + t.b) % 4294967296, (s.c + t.c) % 4294967296,
   (s.d + t.d) % 4294967296, (s.e + t.e) % 4294967296, (s.f + t.f) % 4294967296,
   (s.g + t.g) % 4294967296, (s.h + t.h) % 4294967296⟩

/-- SHA-256 padding: 0x80, zeros, then the bit length as 8 big-endian bytes. -/
def padMsg (msg : List Nat) : List Nat :=
  msg ++ 128 :: List.replicate ((119 - msg.length % 64) % 64) 0 ++ toBEBytes 8 (msg.length * 8)

/-- Split into 64-byte chunks; the first argument is recursion fuel. -/
def chunksGo : Nat → List Nat → List (List Nat)
  | 0, _ => []
  | _ + 1, [] => []
  | k + 1, a :: l => (a :: l).take 64 :: chunksGo k ((a :: l).drop 64)

/-- Split a padded message into 64-byte chunks. -/
def chunks64 (l : List Nat) : List (List Nat) :=
  chunksGo l.length l

/-- Serialize the final state as the 32 big-endian digest bytes. -/
def digestBytes (s : HashState) : List Nat :=
  wordToBEBytes s.a ++ wordToBEBytes s.b ++ wordToBEBytes s.c ++ wordToBEBytes s.d ++
  wordToBEBytes s.e ++ wordToBEBytes s.f ++ wordToBEBytes s.g ++ wordToBEBytes s.h

/-- SHA-256 of a byte string. -/
def sha256 (msg : List Nat) : List Nat :=
  digestBytes ((chunks64 (padMsg msg)).foldl compress initState)

/-- The standard base64 alphabet as ASCII codes. -/
def base64Table : List Nat :=
  (List.range 26).map (65 + ·) ++ (List.range 26).map (97 + ·) ++
    (List.range 10).map (48 + ·) ++ [43, 47]

/-- Standard base64 with `=` padding (byte 61), as `BASE64_STANDARD.encode`. -/
def base64Encode : List Nat → List Nat
  | b0 :: b1 :: b2 :: rest =>
    let n := b0 * 65536 + b1 * 256 + b2
    base64Table.getD (n / 262144 % 64) 0 :: base64Table.getD (n / 4096 % 64) 0 ::
      base64Table.getD (n / 64 % 64) 0 :: base64Table.getD (n % 64) 0 :: base64Encode rest
  | [b0, b1] =>
    let n := b0 * 65536 + b1 * 256
    [base64Table.getD (n / 262144 % 64) 0, base64Table.getD (n / 4096 % 64) 0,
     base64Table.getD (n / 64 % 64) 0, 61]
  | [b0] =>
    let n := b0 * 65536
    [base64Table.getD (n / 262144 % 64) 0, base64Table.getD (n / 4096 % 64) 0, 61, 61]
  | [] => []

/-- Incremental SHA-256 hasher state (`Sha256::new()`): the bytes absorbed
so far. Functionally equivalent to the streaming state of the `sha2` crate. -/
def Sha256.new : List Nat := []

/-- Absorb bytes (`hasher.update` / `chain_update`). -/
def Sha256.update (hasher bytes : List Nat) : List Nat := hasher ++ bytes

/-- Produce the digest of all absorbed bytes (`hasher.finalize()`). -/
def Sha256.finalize (hasher : List Nat) : List Nat := sha256 hasher

/-- A `Block` of `main.rs`: `prev` optionally holds the owned predecessor
together with the predecessor's hash cached at link time. -/
inductive Block where
  | mk (prev : Option (Block × List Nat)) (timestamp : List Nat) (transaction : List Nat) (nonce : Nat)

/-- Field accessor for `prev`. -/
def Block.prev : Block → Option (Block × List Nat)
  | .mk p _ _ _ => p

/-- Field accessor for `timestamp`. -/
def Block.timestamp : Block → List Nat
  | .mk _ ts _ _ => ts

/-- Field accessor for `transaction`. -/
def Block.transaction : Block → List Nat
  | .mk _ _ tx _ => tx

/-- Field accessor for `nonce`. -/
def Block.nonce : Block → Nat
  | .mk _ _ _ n => n

/-- Overwrite the nonce, keeping every other field (`block.nonce = …`). -/
def Block.setNonce : Block → Nat → Block
  | .mk p ts tx _, n => .mk p ts tx n

/-- The `Blockchain` struct: optional tail block and fixed difficulty. -/
structure Blockchain where
  tail : Option Block
  difficulty : Nat

/-- `Blockchain::new(difficulty)`. -/
def Blockchain.new (difficulty : Nat) : Blockchain := ⟨none, difficulty⟩

/-- `Blockchain::hash_block`: absorb the cached predecessor hash (when a
predecessor exists), the timestamp rendering, the transaction bytes and the
8 little-endian nonce bytes, then base64-encode the SHA-256 digest. -/
def hash_block (block : Block) : List Nat :=
  let timestamp := block.timestamp
  let nonce := toLEBytes 8 block.nonce
  let hasher := Sha256.new
  let hasher :=
    match block.prev with
    | some pc => Sha256.update hasher pc.2
    | none => hasher
  let digest :=
    Sha256.finalize (Sha256.update (Sha256.update (Sha256.update hasher timestamp)
      block.transaction) nonce)
  base64Encode digest

/-- Verification error values of `main.rs` (`anyhow::bail!` messages):
`invalidHash` carries the offending hash, `hashMismatch` the cached
(`specified`) and recomputed (`expected`) hashes, as in the error text. -/
inductive VerifyError where
  | invalidHash (hash : List Nat)
  | hashMismatch (specified expected : List Nat)

/-- An error wrapped by `.with_context(…)`: the context names the `next`
block (an `Option<&Block>`) adjacent to the failure. -/
structure ContextError where
  error : VerifyError
  context : Option Block

/-- `Blockchain::check_hash`: fail unless the first `difficulty` characters
of the hash are all the literal `'0'` (byte 48). -/
def check_hash (difficulty : Nat) (hash : List Nat) : Except VerifyError Unit :=
  if !((hash.take difficulty).all (fun c => c == 48)) then .error (.invalidHash hash)
  else .ok ()

/-- The `while check_hash(…).is_err() { nonce += 1 }` loop of `mine_block`,
with explicit fuel; `none` models non-termination within `fuel` checks. -/
def mineLoop (difficulty : Nat) : Nat → Block → Option Block
  | 0, _ => none
  | fuel + 1, block =>
    if (check_hash difficulty (hash_block block)).isOk then some block
    else mineLoop difficulty fuel (block.setNonce (block.nonce + 1))

/-- `Blockchain::mine_block`: reset the nonce to its default 0, then search. -/
def Blockchain.mine_block (bc : Blockchain) (fuel : Nat) (block : Block) : Option Block :=
  mineLoop bc.difficulty fuel (block.setNonce 0)

/-- `Blockchain::add`: detach the tail, cache its hash in the new block's
`prev` link, mine the new block and install it as the tail. The timestamp
argument stands for the `Utc::now()` rendering taken at the call. -/
def Blockchain.add (bc : Blockchain) (fuel : Nat) (transaction timestamp : List Nat) :
    Option Blockchain :=
  let prev := bc.tail.map (fun block => (block, hash_block block))
  let new_block := Block.mk prev timestamp transaction 0
  (bc.mine_block fuel new_block).map (fun b => ⟨some b, bc.difficulty⟩)

/-- The tail-to-genesis sequence produced by following `prev` links
(`core::iter::successors`), starting from a given block. -/
def chainList : Block → List Block
  | .mk none ts tx n => [.mk none ts tx n]
  | .mk (some (p, c)) ts tx n => .mk (some (p, c)) ts tx n :: chainList p

/-- `Blockchain::iter`: the tail-to-genesis traversal of the whole chain. -/
def Blockchain.iter (bc : Blockchain) : List Block :=
  match bc.tail with
  | none => []
  | some t => chainList t

/-- One `try_fold` body of `verify_chain`. The accumulator is the previous
iterator element (`next`); the cached hash is read out of it by
`next.and_then(|b| b.prev…).unwrap()`, whose panic is `.error none`. -/
def verifyStep (d : Nat) (next : Option Block) (prev : Block) :
    Except (Option ContextError) (Option Block) :=
  match next.bind (fun b => b.prev.map (fun pc => pc.2)) with
  | none => .error none
  | some expected_hash =>
    let inner : Except VerifyError (Option Block) :=
      let h := hash_block prev
      if h ≠ expected_hash then .error (.hashMismatch expected_hash h)
      else (check_hash d h).map (fun _ => some prev)
    inner.mapError (fun e => some ⟨e, next⟩)

/-- `Iterator::try_fold` over the remaining blocks, short-circuiting on the
first error. -/
def verifyFold (d : Nat) : Option Block → List Block → Except (Option ContextError) (Option Block)
  | acc, [] => .ok acc
  | acc, prev :: rest =>
    match verifyStep d acc prev with
    | .error e => .error e
    | .ok acc' => verifyFold d acc' rest

/-- `Blockchain::verify_chain`: take the tail off the iterator, fold over
the rest, discard the final accumulator. -/
def Blockchain.verify_chain (bc : Blockchain) : Except (Option ContextError) Unit :=
  let blocks := bc.iter
  (verifyFold bc.difficulty blocks.head? blocks.tail).map (fun _ => ())

/-- Structural induction for `Block` along `prev` links. -/
def Block.inductionOn {motive : Block → Prop}
    (base : ∀ ts tx n, motive (.mk none ts tx n))
    (step : ∀ p c ts tx n, motive p → motive (.mk (some (p, c)) ts tx n)) :
    ∀ b, motive b
  | .mk none ts tx n => base ts tx n
  | .mk (some (p, c)) ts tx n => step p c ts tx n (Block.inductionOn base step p)

/-- Modelled from the spec: the hash input is the concatenation, in order,
of the cached predecessor hash (absent for genesis), the timestamp
rendering, the transaction payload and the 8 little-endian nonce bytes. -/
def specHashInput (block : Block) : List Nat :=
  (match block.prev with
   | none => []
   | some pc => pc.2) ++ block.timestamp ++ block.transaction ++ toLEBytes 8 block.nonce

/-- Direct recursive statement of the verification pass of §4.5: walk the
pairs tail-to-genesis, recompute the older block's hash, compare against
the cached value first, then apply the difficulty check; stop at the first
failure; never hash the starting (tail) block itself. -/
def verifySpec (d : Nat) : Block → Except ContextError Unit
  | .mk none _ _ _ => .ok ()
  | .mk (some (p, c)) ts tx n =>
    let h := hash_block p
    if h = c then
      match check_hash d h with
      | .ok _ => verifySpec d p
      | .error e => .error ⟨e, some (.mk (some (p, c)) ts tx n)⟩
    else .error ⟨.hashMismatch c h, some (.mk (some (p, c)) ts tx n)⟩

/-- The genesis block at the end of the `prev` chain. -/
def genesisOf : Block → Block
  | .mk none ts tx n => .mk none ts tx n
  | .mk (some (p, _)) _ _ _ => genesisOf p

/-- Every link below the block caches exactly the recomputed hash of its
predecessor, and every cached hash meets the difficulty requirement. -/
def goodLinks (d : Nat) : Block → Bool
  | .mk none _ _ _ => true
  | .mk (some (p, c)) _ _ _ =>
    (c == hash_block p) && (check_hash d c).isOk && goodLinks d p

/-- Chain invariant after honest construction: the tail (if any) was mined
to the chain's difficulty and all cached links are consistent. -/
def minedChain (bc : Blockchain) : Bool :=
  match bc.tail with
  | none => true
  | some t => (check_hash bc.difficulty (hash_block t)).isOk && goodLinks bc.difficulty t

/-- Build a chain through `add` calls only: each operation supplies the
transaction payload, the timestamp rendering at that call, and the mining
fuel granted to that call. -/
def buildChain (d : Nat) (ops : List (List Nat × List Nat × Nat)) : Option Blockchain :=
  ops.foldlM (fun bc op => bc.add op.2.2 op.1 op.2.1) (Blockchain.new d)

/-- Replace the block at depth `i` along the `prev` links (depth 0 is the
block itself), keeping every cached hash stored above it unchanged. -/
def replaceAt : Block → Nat → Block → Block
  | _, 0, b' => b'
  | b, i + 1, b' =>
    match b with
    | .mk none ts tx n => .mk none ts tx n
    | .mk (some (p, c)) ts tx n => .mk (some (replaceAt p i b', c)) ts tx n

/-- The nonce `n` makes the block's hash meet the difficulty requirement. -/
def satNonce (d : Nat) (b : Block) (n : Nat) : Prop :=
  (check_hash d (hash_block (b.setNonce n))).isOk = true

instance (d : Nat) (b : Block) : DecidablePred (satNonce d b) :=
  fun _ => instDecidableEqBool _ _

/-- A verification result that models the `unwrap()` panic. -/
def panicked : Except (Option ContextError) Unit → Bool
  | .error none => true
  | _ => false

/-- Concrete demonstration inputs: payloads "a", "b", "c" with short opaque
timestamp renderings, one unit of fuel each (difficulty 0 mines at once). -/
def demoOps : List (List Nat × List Nat × Nat) :=
  [([97], [116, 49], 1), ([98], [116, 50], 1), ([99], [116, 51], 1)]

/-- The chain built from `demoOps` at difficulty 0. -/
def demoChain : Blockchain := (buildChain 0 demoOps).getD (Blockchain.new 0)

/-- Genesis block of the demonstration chain (payload "a"). -/
def demoGenA : Block := Block.mk none [116, 49] [97] 0

/-- Middle block of the demonstration chain (payload "b"). -/
def demoB1 : Block := Block.mk (some (demoGenA, hash_block demoGenA)) [116, 50] [98] 0

/-- Tail block of the demonstration chain (payload "c"). -/
def demoB0 : Block := Block.mk (some (demoB1, hash_block demoB1)) [116, 51] [99] 0

/-- The demonstration chain written out block by block. -/
def demo3 : Blockchain := ⟨some demoB0, 0⟩

/-- `demoB1` with the cached predecessor hash in its link overwritten by
the bytes of "zzz" (a value differing from every base64 digest). -/
def tamperedB1 : Block := Block.mk (some (demoGenA, [122, 122, 122])) [116, 50] [98] 0

/-- `demo3` after mutating, in place, the cached predecessor hash stored in
the middle block's link; the tail and its cached hash of the original
middle block are untouched. -/
def tampered3 : Blockchain :=
  ⟨some (Block.mk (some (tamperedB1, hash_block demoB1)) [116, 51] [99] 0), 0⟩

/-- A replacement genesis block with payload "d" instead of "a". -/
def demoMutG : Block := Block.mk none [116, 49] [100] 0

/-- A single fresh block used for the mining witnesses. -/
def demoFresh : Block := Block.mk none [116] [97] 5

/-- Two-block chain relinked with the cached hash "xyz", which both differs
from the recomputed genesis hash and violates difficulty 1. -/
def relinked2 : Blockchain :=
  ⟨some (Block.mk (some (demoGenA, [120, 121, 122])) [116, 50] [98] 0), 1⟩

/-- The attempt to `add` payload "a" at timestamp "t" to a fresh chain of
difficulty 44, as a function of the fuel granted to the mining loop. -/
def add44 : Nat → Option Blockchain :=
  fun fuel => (Blockchain.new 44).add fuel [97] [116]

/-- SHA-256 of the empty message matches the published test vector. -/
theorem sha256_empty_vector :
    sha256 [] = [0xe3, 0xb0, 0xc4, 0x42, 0x98, 0xfc, 0x1c, 0x14, 0x9a, 0xfb, 0xf4, 0xc8,
      0x99, 0x6f, 0xb9, 0x24, 0x27, 0xae, 0x41, 0xe4, 0x64, 0x9b, 0x93, 0x4c,
      0xa4, 0x95, 0x99, 0x1b, 0x78, 0x52, 0xb8, 0x55] := by decide

/-- SHA-256 of "abc" matches the published test vector. -/
theorem sha256_abc_vector :
    sha256 [97, 98, 99] = [0xba, 0x78, 0x16, 0xbf, 0x8f, 0x01, 0xcf, 0xea, 0x41, 0x41, 0x40, 0xde,
      0x5d, 0xae, 0x22, 0x23, 0xb0, 0x03, 0x61, 0xa3, 0x96, 0x17, 0x7a, 0x9c,
      0xb4, 0x10, 0xff, 0x61, 0xf2, 0x00, 0x15, 0xad] := by decide

/-- The incremental hashing of `hash_block` equals one SHA-256 pass over the
concatenated fields in source order, base64-encoded. -/
theorem hash_block_eq (b : Block) : hash_block b = base64Encode (sha256 (specHashInput b)) := by
  cases b with
  | mk p ts tx n =>
    cases p with
    | none =>
      simp [hash_block, specHashInput, Sha256.new, Sha256.update, Sha256.finalize,
        Block.prev, Block.timestamp, Block.transaction, Block.nonce]
    | some pc =>
      simp [hash_block, specHashInput, Sha256.new, Sha256.update, Sha256.finalize,
        Block.prev, Block.timestamp, Block.transaction, Block.nonce, List.append_assoc]

/-- A difficulty check is `Ok` exactly when the boolean prefix test passes. -/
theorem check_hash_ok_iff (d : Nat) (h : List Nat) :
    check_hash d h = .ok () ↔ (h.take d).all (fun c => c == 48) = true := by
  cases hb : ((h.take d).all fun c => c == 48) with
  | false => simp [check_hash, hb]
  | true => simp [check_hash, hb]

/-- A difficulty check returns either `Ok` or the `invalidHash` error. -/
theorem check_hash_cases (d : Nat) (h : List Nat) :
    check_hash d h = .ok () ∨ check_hash d h = .error (.invalidHash h) := by
  unfold check_hash
  split
  · right; rfl
  · left; rfl

/-- The `isOk` view agrees with equality to `Ok`. -/
theorem check_hash_isOk_iff (d : Nat) (h : List Nat) :
    (check_hash d h).isOk = true ↔ check_hash d h = .ok () := by
  rcases check_hash_cases d h with hc | hc <;> rw [hc] <;> simp [Except.isOk, Except.toBool]

/-- Difficulty 0 accepts every hash. -/
theorem check_hash_zero (h : List Nat) : check_hash 0 h = .ok () := rfl

/-- A chain listing always starts with the block itself. -/
theorem chainList_cons (b : Block) : chainList b = b :: (chainList b).tail := by
  cases b with
  | mk p ts tx n => cases p with
    | none => simp [chainList]
    | some pc => simp [chainList]

/-- Overwriting the nonce twice keeps the last value. -/
theorem setNonce_setNonce (b : Block) (m n : Nat) : (b.setNonce m).setNonce n = b.setNonce n := by
  cases b; rfl

/-- The nonce written by `setNonce` is read back by `nonce`. -/
theorem setNonce_nonce (b : Block) (m : Nat) : (b.setNonce m).nonce = m := by
  cases b; rfl

/-- `setNonce` spelled with the field accessors. -/
theorem setNonce_eq_mk (b : Block) (n : Nat) :
    b.setNonce n = Block.mk b.prev b.timestamp b.transaction n := by
  cases b; rfl

/-- Writing back the current nonce is the identity. -/
theorem setNonce_self (b : Block) : b.setNonce b.nonce = b := by
  cases b; rfl

/-- If `N` is a satisfying nonce and no smaller nonce satisfies, the mining
loop started at any nonce `m ≤ N` with enough fuel stops exactly at `N`. -/
theorem mineLoop_finds (d : Nat) (b : Block) (N : Nat) (hN : satNonce d b N)
    (hmin : ∀ k, k < N → ¬ satNonce d b k) :
    ∀ fuel m, m ≤ N → N - m < fuel → mineLoop d fuel (b.setNonce m) = some (b.setNonce N) := by
  intro fuel
  induction fuel with
  | zero => intro m hm hf; omega
  | succ f ihf =>
    intro m hm hf
    by_cases hsat : satNonce d b m
    · have hmN : m = N := by
        rcases lt_or_eq_of_le hm with hlt | heq
        · exact absurd hsat (hmin m hlt)
        · exact heq
      subst hmN
      unfold mineLoop
      simp only [satNonce] at hsat
      simp [hsat]
    · have hmN : m ≠ N := fun he => hsat (he ▸ hN)
      have hmlt : m < N := lt_of_le_of_ne hm hmN
      have hcond : (check_hash d (hash_block (b.setNonce m))).isOk = false := by
        rcases hb : (check_hash d (hash_block (b.setNonce m))).isOk with _ | _
        · rfl
        · exact absurd hb hsat
      unfold mineLoop
      rw [hcond]
      simp only [Bool.false_eq_true, if_false, setNonce_nonce, setNonce_setNonce]
      exact ihf (m + 1) hmlt (by omega)

/-- Whatever the mining loop returns satisfies the difficulty check and
differs from its input only in the nonce. -/
theorem mineLoop_sound (d : Nat) :
    ∀ fuel b b', mineLoop d fuel b = some b' →
      (check_hash d (hash_block b')).isOk = true ∧ ∃ k, b' = b.setNonce k := by
  intro fuel
  induction fuel with
  | zero => intro b b' h; simp [mineLoop] at h
  | succ f ihf =>
    intro b b' h
    unfold mineLoop at h
    split at h
    · cases h
      refine ⟨by assumption, b.nonce, (setNonce_self b).symm⟩
    · obtain ⟨hok, k, hk⟩ := ihf _ _ h
      exact ⟨hok, k, by rw [hk, setNonce_setNonce]⟩

/-- An `add` that returns produced exactly the mined block on top of the
old tail, with the old tail's hash cached in the new link. -/
theorem add_some (bc : Blockchain) (fuel : Nat) (tx ts : List Nat) (bc' : Blockchain)
    (h : bc.add fuel tx ts = some bc') :
    ∃ k, bc' = ⟨some (Block.mk (bc.tail.map (fun b => (b, hash_block b))) ts tx k),
        bc.difficulty⟩ ∧
      (check_hash bc.difficulty
        (hash_block (Block.mk (bc.tail.map (fun b => (b, hash_block b))) ts tx k))).isOk = true := by
  simp only [Blockchain.add, Blockchain.mine_block] at h
  cases hm : mineLoop bc.difficulty fuel
      ((Block.mk (bc.tail.map fun block => (block, hash_block block)) ts tx 0).setNonce 0) with
  | none => rw [hm] at h; cases h
  | some b' =>
    rw [hm] at h
    obtain ⟨hok, k, hk⟩ := mineLoop_sound bc.difficulty fuel _ b' hm
    rw [setNonce_setNonce] at hk
    rw [show (Block.mk (bc.tail.map fun block => (block, hash_block block)) ts tx 0).setNonce k =
      Block.mk (bc.tail.map fun block => (block, hash_block block)) ts tx k from rfl] at hk
    cases h
    exact ⟨k, by rw [hk], by rw [← hk]; exact hok⟩

/-- `verifySpec` accepts a lone genesis block. -/
theorem verifySpec_genesis (d : Nat) (ts tx : List Nat) (n : Nat) :
    verifySpec d (.mk none ts tx n) = .ok () := rfl

/-- `verifySpec` on a mismatching cached hash. -/
theorem verifySpec_mismatch (d : Nat) (p : Block) (c ts tx : List Nat) (n : Nat)
    (hpc : hash_block p ≠ c) :
    verifySpec d (.mk (some (p, c)) ts tx n) =
      .error ⟨.hashMismatch c (hash_block p), some (.mk (some (p, c)) ts tx n)⟩ := by
  simp only [verifySpec]
  rw [if_neg hpc]

/-- `verifySpec` steps to the predecessor when the link checks out. -/
theorem verifySpec_link_ok (d : Nat) (p : Block) (c ts tx : List Nat) (n : Nat)
    (hpc : hash_block p = c) (hok : check_hash d (hash_block p) = .ok ()) :
    verifySpec d (.mk (some (p, c)) ts tx n) = verifySpec d p := by
  simp only [verifySpec]
  rw [if_pos hpc, hok]

/-- `verifySpec` on a matching link whose hash misses the difficulty. -/
theorem verifySpec_link_bad (d : Nat) (p : Block) (c ts tx : List Nat) (n : Nat)
    (hpc : hash_block p = c)
    (herr : check_hash d (hash_block p) = .error (.invalidHash (hash_block p))) :
    verifySpec d (.mk (some (p, c)) ts tx n) =
      .error ⟨.invalidHash (hash_block p), some (.mk (some (p, c)) ts tx n)⟩ := by
  simp only [verifySpec]
  rw [if_pos hpc, herr]

/-- `genesisOf` skips over a link. -/
theorem genesisOf_link (d : Block) (c ts tx : List Nat) (n : Nat) :
    genesisOf (.mk (some (d, c)) ts tx n) = genesisOf d := by
  simp [genesisOf]

/-- The `try_fold` of `verify_chain`, started with the tail in the
accumulator and run over the remaining blocks, computes `verifySpec`. -/
theorem verifyFold_chain (d : Nat) (t : Block) :
    verifyFold d (some t) (chainList t).tail =
      match verifySpec d t with
      | .ok _ => .ok (some (genesisOf t))
      | .error e => .error (some e) := by
  induction t using Block.inductionOn with
  | base ts tx n => simp [chainList, verifyFold, verifySpec, genesisOf]
  | step p c ts tx n ih =>
    have h1 : (chainList (Block.mk (some (p, c)) ts tx n)).tail = chainList p := by
      simp [chainList]
    rw [h1, chainList_cons p, verifyFold]
    have hstep : verifyStep d (some (Block.mk (some (p, c)) ts tx n)) p =
        ((if hash_block p ≠ c then
            (Except.error (VerifyError.hashMismatch c (hash_block p)) :
              Except VerifyError (Option Block))
          else (check_hash d (hash_block p)).map (fun _ => some p)).mapError
            (fun e => some ⟨e, some (Block.mk (some (p, c)) ts tx n)⟩)) := rfl
    rw [hstep]
    by_cases hpc : hash_block p = c
    · rw [if_neg (not_not_intro hpc)]
      rcases check_hash_cases d (hash_block p) with hok | herr
      · rw [hok]
        simp only [Except.map, Except.mapError]
        rw [verifySpec_link_ok d p c ts tx n hpc hok, genesisOf_link]
        exact ih
      · rw [herr]
        simp only [Except.map, Except.mapError]
        rw [verifySpec_link_bad d p c ts tx n hpc herr]
    · rw [if_pos hpc]
      simp only [Except.mapError]
      rw [verifySpec_mismatch d p c ts tx n hpc]

/-- `verify_chain` is exactly the recursive pairwise pass `verifySpec` on
the tail block, with its error (if any) wrapped in `some`. -/
theorem verify_chain_eq (bc : Blockchain) :
    bc.verify_chain =
      match bc.tail with
      | none => .ok ()
      | some t => (verifySpec bc.difficulty t).mapError some := by
  obtain ⟨tail, d⟩ := bc
  cases tail with
  | none => rfl
  | some t =>
    show (verifyFold d (chainList t).head? (chainList t).tail).map (fun _ => ()) =
      (verifySpec d t).mapError some
    rw [show (chainList t).head? = some t from by rw [chainList_cons t]; rfl]
    rw [verifyFold_chain d t]
    cases hv : verifySpec d t with
    | ok u => rfl
    | error e => rfl

/-- Consistent links with valid difficulty always pass `verifySpec`. -/
theorem verifySpec_of_goodLinks (d : Nat) (t : Block) (hg : goodLinks d t = true) :
    verifySpec d t = .ok () := by
  induction t using Block.inductionOn with
  | base ts tx n => rfl
  | step p c ts tx n ih =>
    simp only [goodLinks, Bool.and_eq_true, beq_iff_eq] at hg
    obtain ⟨⟨hc, hok⟩, hgood⟩ := hg
    subst hc
    rw [verifySpec_link_ok d p (hash_block p) ts tx n rfl ((check_hash_isOk_iff d _).mp hok)]
    exact ih hgood

/-- An `add` call preserves the honest-chain invariant. -/
theorem add_minedChain (bc : Blockchain) (fuel : Nat) (tx ts : List Nat) (bc' : Blockchain)
    (hmc : minedChain bc = true) (h : bc.add fuel tx ts = some bc') :
    minedChain bc' = true := by
  obtain ⟨k, rfl, hok⟩ := add_some bc fuel tx ts bc' h
  unfold minedChain
  simp only []
  rw [Bool.and_eq_true]
  refine ⟨hok, ?_⟩
  cases htail : bc.tail with
  | none => rfl
  | some t =>
    unfold minedChain at hmc
    rw [htail] at hmc
    simp only [Bool.and_eq_true] at hmc
    rw [show Option.map (fun b => (b, hash_block b)) (some t) = some (t, hash_block t) from rfl]
    simp only [goodLinks]
    simp [hmc.1, hmc.2]

/-- Folding `add` calls preserves the honest-chain invariant. -/
theorem buildFold_minedChain :
    ∀ (ops : List (List Nat × List Nat × Nat)) (bc0 : Blockchain), minedChain bc0 = true →
      ∀ bc, ops.foldlM (fun bc op => bc.add op.2.2 op.1 op.2.1) bc0 = some bc →
        minedChain bc = true := by
  intro ops
  induction ops with
  | nil => intro bc0 h0 bc hfold; cases hfold; exact h0
  | cons op ops ih =>
    intro bc0 h0 bc hfold
    rw [List.foldlM_cons] at hfold
    cases hadd : bc0.add op.2.2 op.1 op.2.1 with
    | none => rw [hadd] at hfold; cases hfold
    | some bc1 =>
      rw [hadd] at hfold
      exact ih bc1 (add_minedChain bc0 op.2.2 op.1 op.2.1 bc1 h0 hadd) bc hfold

/-- The tail-to-genesis listing of the chain an `add` produced. -/
theorem add_iter (bc : Blockchain) (fuel : Nat) (tx ts : List Nat) (bc' : Blockchain)
    (h : bc.add fuel tx ts = some bc') :
    ∃ k, bc'.iter =
      Block.mk (bc.tail.map (fun b => (b, hash_block b))) ts tx k :: bc.iter := by
  obtain ⟨k, rfl, -⟩ := add_some bc fuel tx ts bc' h
  refine ⟨k, ?_⟩
  cases htail : bc.tail with
  | none =>
    rw [show bc.iter = [] from by unfold Blockchain.iter; rw [htail]]
    rfl
  | some t =>
    rw [show bc.iter = chainList t from by unfold Blockchain.iter; rw [htail]]
    show chainList (Block.mk (some (t, hash_block t)) ts tx k) = _
    simp [chainList]

/-- Folding `add` calls prepends the new payloads, newest first. -/
theorem buildFold_iter :
    ∀ (ops : List (List Nat × List Nat × Nat)) (bc0 : Blockchain) (bc : Blockchain),
      ops.foldlM (fun bc op => bc.add op.2.2 op.1 op.2.1) bc0 = some bc →
        bc.iter.map Block.transaction =
          (ops.map (fun op => op.1)).reverse ++ bc0.iter.map Block.transaction := by
  intro ops
  induction ops with
  | nil => intro bc0 bc hfold; cases hfold; simp
  | cons op ops ih =>
    intro bc0 bc hfold
    rw [List.foldlM_cons] at hfold
    cases hadd : bc0.add op.2.2 op.1 op.2.1 with
    | none => rw [hadd] at hfold; cases hfold
    | some bc1 =>
      rw [hadd] at hfold
      obtain ⟨k, hit⟩ := add_iter bc0 op.2.2 op.1 op.2.1 bc1 hadd
      have := ih bc1 bc hfold
      rw [this, hit]
      simp [Block.transaction, List.append_assoc]

/-- SHA-256 digests are 32 bytes long. -/
theorem sha256_length (m : List Nat) : (sha256 m).length = 32 := by
  simp [sha256, digestBytes, wordToBEBytes, List.length_append]

/-- Base64 of a byte string whose length is 2 mod 3 ends in one padding
byte `'='` (61), after `(len / 3) * 4 + 3` data characters. -/
theorem base64_padded (l : List Nat) (hm : l.length % 3 = 2) :
    ∃ front, base64Encode l = front ++ [61] ∧ front.length = (l.length / 3) * 4 + 3 := by
  have H : ∀ (N : Nat) (l : List Nat), l.length ≤ N → l.length % 3 = 2 →
      ∃ front, base64Encode l = front ++ [61] ∧ front.length = (l.length / 3) * 4 + 3 := by
    intro N
    induction N with
    | zero =>
      intro l hl hm
      exact absurd hm (by omega)
    | succ N ihN =>
      intro l hl hm
      rcases l with _ | ⟨b0, _ | ⟨b1, _ | ⟨b2, rest⟩⟩⟩
      · simp at hm
      · simp at hm
      · refine ⟨[base64Table.getD ((b0 * 65536 + b1 * 256) / 262144 % 64) 0,
            base64Table.getD ((b0 * 65536 + b1 * 256) / 4096 % 64) 0,
            base64Table.getD ((b0 * 65536 + b1 * 256) / 64 % 64) 0], ?_, ?_⟩
        · simp [base64Encode]
        · simp
      · have hm' : rest.length % 3 = 2 := by
          simp only [List.length_cons] at hm
          omega
        have hl' : rest.length ≤ N := by
          simp only [List.length_cons] at hl
          omega
        obtain ⟨front, hf, hlen⟩ := ihN rest hl' hm'
        refine ⟨base64Table.getD ((b0 * 65536 + b1 * 256 + b2) / 262144 % 64) 0 ::
            base64Table.getD ((b0 * 65536 + b1 * 256 + b2) / 4096 % 64) 0 ::
            base64Table.getD ((b0 * 65536 + b1 * 256 + b2) / 64 % 64) 0 ::
            base64Table.getD ((b0 * 65536 + b1 * 256 + b2) % 64) 0 :: front, ?_, ?_⟩
        · simp [base64Encode, hf]
        · simp only [List.length_cons, hlen]
          omega
  exact H l.length l le_rfl hm

/-- No block hash can pass difficulty 44: the hash is the 44-character
base64 rendering of a 32-byte digest, whose final character is always the
padding `'='`, never `'0'`. -/
theorem check_hash_44_fails (b : Block) : (check_hash 44 (hash_block b)).isOk = false := by
  rw [hash_block_eq]
  obtain ⟨front, hf, hlen⟩ := base64_padded (sha256 (specHashInput b)) (by rw [sha256_length])
  rw [hf]
  have hfl : front.length = 43 := by rw [hlen, sha256_length]
  have htake : (front ++ [61]).take 44 = front ++ [61] := by
    rw [← show (front ++ [61]).length = 44 from by simp [hfl]]
    exact List.take_length _
  unfold check_hash
  rw [htake]
  have hall : ((front ++ [61]).all fun c => c == 48) = false := by
    rw [List.all_append]
    simp
  rw [hall]
  rfl

/-- The mining loop can never exit at difficulty 44, whatever the fuel. -/
theorem mineLoop44_none : ∀ (fuel : Nat) (b : Block), mineLoop 44 fuel b = none := by
  intro fuel
  induction fuel with
  | zero => intro b; rfl
  | succ f ih =>
    intro b
    unfold mineLoop
    rw [check_hash_44_fails b]
    simp [ih]

/-- Replacing a strictly deeper block leaves a block's own hash unchanged:
the hash reads only the cached predecessor hash, not the predecessor. -/
theorem hash_block_replaceAt (i : Nat) (b' : Block) (q : Block) :
    hash_block (replaceAt q (i + 1) b') = hash_block q := by
  cases q with
  | mk pr ts tx n =>
    cases pr with
    | none => rfl
    | some pc =>
      obtain ⟨p0, c0⟩ := pc
      rfl

/-- Replacing the block at depth `j + 1` below a well-linked block with one
whose hash differs from the cached value makes the pairwise pass stop with
exactly that hash mismatch, blamed on the successor of the replacement. -/
theorem tamper_spec (d : Nat) (b' : Block) :
    ∀ (j : Nat) (t : Block), goodLinks d t = true → ∀ s, (chainList t)[j]? = some s →
      ∀ p c, s.prev = some (p, c) → (hash_block b' == c) = false →
      verifySpec d (replaceAt t (j + 1) b') =
        .error ⟨.hashMismatch c (hash_block b'), some (replaceAt s 1 b')⟩ := by
  intro j
  induction j with
  | zero =>
    intro t hg s hs p c hp hne
    have hst : t = s := by
      rw [chainList_cons t] at hs
      simpa using hs
    subst hst
    cases t with
    | mk pr ts tx n =>
      simp only [Block.prev] at hp
      subst hp
      simp only [Nat.zero_add, replaceAt]
      exact verifySpec_mismatch d b' c ts tx n (beq_eq_false_iff_ne.mp hne)
  | succ j ihj =>
    intro t hg s hs p c hp hne
    cases t with
    | mk pr ts tx n =>
      cases pr with
      | none =>
        rw [show chainList (Block.mk none ts tx n) = [Block.mk none ts tx n] from rfl] at hs
        simp at hs
      | some pc =>
        obtain ⟨p0, c0⟩ := pc
        simp only [goodLinks, Bool.and_eq_true, beq_iff_eq] at hg
        obtain ⟨⟨hc0, hok0⟩, hg0⟩ := hg
        have hs' : (chainList p0)[j]? = some s := by
          rw [show chainList (Block.mk (some (p0, c0)) ts tx n) =
            Block.mk (some (p0, c0)) ts tx n :: chainList p0 from rfl] at hs
          simpa using hs
        have hrec := ihj p0 hg0 s hs' p c hp hne
        rw [show replaceAt (Block.mk (some (p0, c0)) ts tx n) (j + 1 + 1) b' =
          Block.mk (some (replaceAt p0 (j + 1) b', c0)) ts tx n from rfl]
        rw [verifySpec_link_ok d (replaceAt p0 (j + 1) b') c0 ts tx n
          ((hash_block_replaceAt j b' p0).trans hc0.symm)
          (by
            rw [hash_block_replaceAt j b' p0, ← hc0]
            exact (check_hash_isOk_iff d c0).mp hok0)]
        exact hrec

/-- Boolean prefix test spelled as a pointwise statement about the first
`d` characters. -/
theorem all_take_iff (d : Nat) (l : List Nat) :
    ((l.take d).all (fun c => c == 48) = true) ↔
      (∀ i, i < d → ∀ hi : i < l.length, l.get ⟨i, hi⟩ = 48) := by
  induction d generalizing l with
  | zero => simp
  | succ d ih =>
    cases l with
    | nil => simp
    | cons a l =>
      rw [List.take_succ_cons, List.all_cons, Bool.and_eq_true]
      constructor
      · intro h i hid hi
        cases i with
        | zero => simpa using h.1
        | succ j =>
          have hj : j < l.length := by simpa using hi
          have := (ih l).mp h.2 j (by omega) hj
          simpa using this
      · intro h
        constructor
        · simpa using h 0 (Nat.succ_pos d) (by simp)
        · refine (ih l).mpr ?_
          intro j hjd hj
          have := h (j + 1) (by omega) (by simpa using Nat.succ_lt_succ hj)
          simpa using this

/-- C1: a chain built purely through `add` calls on a fresh `Blockchain`
(any difficulty, any number of adds, including none) always verifies. -/
theorem claim_verify_ok_of_add_only (d : Nat) (ops : List (List Nat × List Nat × Nat))
    (bc : Blockchain) (h : buildChain d ops = some bc) : bc.verify_chain = .ok () := by
  have hmc : minedChain bc = true :=
    buildFold_minedChain ops (Blockchain.new d) rfl bc h
  rw [verify_chain_eq]
  cases htail : bc.tail with
  | none => rfl
  | some t =>
    unfold minedChain at hmc
    rw [htail] at hmc
    simp only [Bool.and_eq_true] at hmc
    show Except.mapError some (verifySpec bc.difficulty t) = Except.ok ()
    rw [verifySpec_of_goodLinks bc.difficulty t hmc.2]
    rfl

/-- Witness for C1: the three-block demonstration chain verifies. -/
theorem claim_verify_ok_of_add_only_witness : demoChain.verify_chain = .ok () :=
  claim_verify_ok_of_add_only 0 demoOps demoChain (by rfl)

/-- C2: a block's hash is the standard base64 encoding of the SHA-256
digest of the cached predecessor hash (omitted for genesis), the timestamp
rendering, the transaction payload and the 8-byte little-endian nonce,
concatenated in that order. -/
theorem claim_hash_block_canonical (block : Block) :
    hash_block block = base64Encode (sha256 (specHashInput block)) :=
  hash_block_eq block

/-- C3: `check_hash` succeeds exactly when the first `difficulty`
characters of the hash are the literal `'0'` (byte 48); difficulty 0
always succeeds. -/
theorem claim_check_hash_leading_zeros (d : Nat) (hash : List Nat) :
    (check_hash d hash = .ok () ↔
      ∀ i, i < d → ∀ hi : i < hash.length, hash.get ⟨i, hi⟩ = 48) ∧
    check_hash 0 hash = .ok () := by
  refine ⟨?_, check_hash_zero hash⟩
  rw [check_hash_ok_iff]
  exact all_take_iff d hash

/-- Witness for C3 at concrete hashes. -/
theorem claim_check_hash_leading_zeros_witness :
    check_hash 2 [48, 48, 99] = .ok () ∧ check_hash 0 [99, 98] = .ok () := by
  refine ⟨(claim_check_hash_leading_zeros 2 [48, 48, 99]).1.mpr ?_,
    (claim_check_hash_leading_zeros 0 [99, 98]).2⟩
  intro i hi hlen
  interval_cases i
  · rfl
  · rfl

/-- C4: `verify_chain` is the pairwise tail-to-genesis pass: for each pair
it compares the recomputed hash of the older block against the cached hash
first (hash-mismatch error), only then applies the difficulty predicate
(invalid-hash error), never hashes the tail itself, and stops at the first
failure — all captured by the recursive `verifySpec`. -/
theorem claim_verify_chain_pairwise (bc : Blockchain) :
    bc.verify_chain =
      match bc.tail with
      | none => .ok ()
      | some t => (verifySpec bc.difficulty t).mapError some :=
  verify_chain_eq bc

/-- C5: with a satisfying nonce available, mining returns the same block
with the nonce set to the least satisfying value, all other fields kept. -/
theorem claim_mine_block_least_nonce (bc : Blockchain) (b : Block)
    (h : ∃ n, satNonce bc.difficulty b n) (fuel : Nat) (hfuel : Nat.find h < fuel) :
    bc.mine_block fuel b =
      some (Block.mk b.prev b.timestamp b.transaction (Nat.find h)) := by
  have hml := mineLoop_finds bc.difficulty b (Nat.find h) (Nat.find_spec h)
    (fun k hk => Nat.find_min h hk) fuel 0 (Nat.zero_le _) (by omega)
  unfold Blockchain.mine_block
  rw [hml, setNonce_eq_mk]

/-- Witness for C5 at difficulty 0: the nonce 5 is reset and the least
satisfying nonce 0 is returned. -/
theorem claim_mine_block_least_nonce_witness :
    (Blockchain.new 0).mine_block 1 demoFresh = some (Block.mk none [116] [97] 0) := by
  have hex : ∃ n, satNonce (Blockchain.new 0).difficulty demoFresh n := ⟨0, by decide⟩
  have hf0 : Nat.find hex = 0 := (Nat.find_eq_zero hex).mpr (by decide)
  have hm := claim_mine_block_least_nonce (Blockchain.new 0) demoFresh hex 1
    (by rw [hf0]; exact Nat.one_pos)
  rw [hf0] at hm
  exact hm

/-- C9: after `n` adds the traversal yields exactly `n` blocks whose
payloads appear in reverse insertion order. -/
theorem claim_iter_reverse_order (d : Nat) (ops : List (List Nat × List Nat × Nat))
    (bc : Blockchain) (h : buildChain d ops = some bc) :
    bc.iter.map Block.transaction = (ops.map (fun op => op.1)).reverse ∧
    bc.iter.length = ops.length := by
  have hmap := buildFold_iter ops (Blockchain.new d) bc h
  rw [show (Blockchain.new d).iter = [] from rfl] at hmap
  simp only [List.map_nil, List.append_nil] at hmap
  refine ⟨hmap, ?_⟩
  have hlen := congrArg List.length hmap
  simpa using hlen

/-- Witness for C9: payloads "a", "b", "c" come back as "c", "b", "a". -/
theorem claim_iter_reverse_order_witness :
    demoChain.iter.map Block.transaction = [[99], [98], [97]] ∧ demoChain.iter.length = 3 := by
  obtain ⟨h1, h2⟩ := claim_iter_reverse_order 0 demoOps demoChain (by rfl)
  exact ⟨h1.trans (by rfl), h2.trans (by rfl)⟩

/-- C10: `verify_chain` never reaches the modelled `unwrap()` panic: the
accumulator always holds a block whose `prev` link supplies the cached
hash, so the result is always a plain `Ok` or a contextualized error. -/
theorem claim_verify_chain_no_panic (bc : Blockchain) : panicked bc.verify_chain = false := by
  rw [verify_chain_eq]
  cases htail : bc.tail with
  | none => rfl
  | some t =>
    show panicked ((verifySpec bc.difficulty t).mapError some) = false
    cases verifySpec bc.difficulty t with
    | ok u => rfl
    | error e => rfl

/-- C6 amended: replacing the block at depth `j + 1` of a well-linked
chain (so its successor sits at depth `j`) by any block whose recomputed
hash differs from the hash cached in the successor's link makes
`verify_chain` fail with exactly that hash mismatch, whose context is the
successor holding the link. -/
theorem claim_tamper_hash_mismatch (d : Nat) (t : Block) (hg : goodLinks d t = true)
    (j : Nat) (s : Block) (hs : (chainList t)[j]? = some s)
    (p : Block) (c : List Nat) (hp : s.prev = some (p, c))
    (b' : Block) (hne : (hash_block b' == c) = false) :
    Blockchain.verify_chain ⟨some (replaceAt t (j + 1) b'), d⟩ =
      .error (some ⟨.hashMismatch c (hash_block b'), some (replaceAt s 1 b')⟩) := by
  rw [verify_chain_eq]
  show (verifySpec d (replaceAt t (j + 1) b')).mapError some = _
  rw [tamper_spec d b' j t hg s hs p c hp hne]
  rfl

/-- Witness for the amended C6: replace the genesis payload "a" by "d"
under the two-block demonstration chain. -/
theorem claim_tamper_hash_mismatch_witness :
    Blockchain.verify_chain ⟨some (replaceAt demoB1 1 demoMutG), 0⟩ =
      .error (some ⟨.hashMismatch (hash_block demoGenA) (hash_block demoMutG),
        some (replaceAt demoB1 1 demoMutG)⟩) :=
  claim_tamper_hash_mismatch 0 demoB1 (by decide) 0 demoB1 (by rfl) demoGenA
    (hash_block demoGenA) (by rfl) demoMutG (by decide)

/-- C6 counterexample: in the three-block chain built by `add` calls,
overwrite the cached predecessor hash stored in the middle block's link
(the link above the genesis block) with the different value "zzz". The
claim expects a hash-mismatch whose context references the genesis block's
successor (the middle block, payload "b"); instead the mismatch is
detected one pair earlier and its context is the tail (payload "c"). -/
theorem claim_tamper_context_counterexample :
    buildChain 0 demoOps = some demo3 ∧
    tampered3.verify_chain =
      .error (some ⟨.hashMismatch (hash_block demoB1) (hash_block tamperedB1),
        some (Block.mk (some (tamperedB1, hash_block demoB1)) [116, 51] [99] 0)⟩) ∧
    ((Block.mk (some (tamperedB1, hash_block demoB1)) [116, 51] [99] 0).transaction ==
      tamperedB1.transaction) = false ∧
    (([122, 122, 122] : List Nat) == hash_block demoGenA) = false := by
  refine ⟨by rfl, by rfl, by decide, by decide⟩

/-- C7 amended: a cached predecessor hash relinked to any value different
from the recomputed hash of the predecessor — difficulty-violating or not
— produces a hash-mismatch error, not an invalid-hash error: the mismatch
comparison runs before the difficulty predicate. -/
theorem claim_relink_hash_mismatch (d : Nat) (p : Block) (c ts tx : List Nat) (n : Nat)
    (hne : (hash_block p == c) = false) :
    Blockchain.verify_chain ⟨some (Block.mk (some (p, c)) ts tx n), d⟩ =
      .error (some ⟨.hashMismatch c (hash_block p), some (Block.mk (some (p, c)) ts tx n)⟩) := by
  rw [verify_chain_eq]
  show (verifySpec d (Block.mk (some (p, c)) ts tx n)).mapError some = _
  rw [verifySpec_mismatch d p c ts tx n (beq_eq_false_iff_ne.mp hne)]
  rfl

/-- Witness for the amended C7 at the concrete relinked chain. -/
theorem claim_relink_hash_mismatch_witness :
    Blockchain.verify_chain relinked2 =
      .error (some ⟨.hashMismatch [120, 121, 122] (hash_block demoGenA),
        some (Block.mk (some (demoGenA, [120, 121, 122])) [116, 50] [98] 0)⟩) :=
  claim_relink_hash_mismatch 1 demoGenA [120, 121, 122] [116, 50] [98] 0 (by decide)

/-- C7 counterexample: the chain `relinked2` carries a cached predecessor
hash "xyz" that violates difficulty 1 and differs from the recomputed
hash, yet `verify_chain` reports a hash mismatch, not an invalid hash. -/
theorem claim_relink_counterexample :
    relinked2.verify_chain =
      .error (some ⟨.hashMismatch [120, 121, 122] (hash_block demoGenA),
        some (Block.mk (some (demoGenA, [120, 121, 122])) [116, 50] [98] 0)⟩) ∧
    (check_hash relinked2.difficulty [120, 121, 122]).isOk = false ∧
    (([120, 121, 122] : List Nat) == hash_block demoGenA) = false := by
  refine ⟨by rfl, by rfl, by decide⟩

/-- C8 counterexample: at difficulty 44 the concrete call `add "a"` never
returns, whatever fuel the mining loop is granted — the constant `none`
function of the fuel: every hash is the 44-character base64 of a 32-byte
digest and ends in `'='`, so the difficulty predicate is unsatisfiable and
the `while` loop never exits. -/
theorem claim_add_difficulty44_counterexample : add44 = fun _ => none := by
  funext fuel
  show (Blockchain.new 44).add fuel [97] [116] = none
  simp only [Blockchain.add, Blockchain.mine_block]
  rw [show (Blockchain.new 44).difficulty = 44 from rfl]
  rw [mineLoop44_none fuel _]
  rfl

/-- C8 amended: `add` returns precisely when mining can finish — whenever
some nonce satisfies the difficulty predicate for the freshly constructed
block, `add` succeeds once the fuel exceeds the least such nonce. -/
theorem claim_add_returns_of_satisfiable (bc : Blockchain) (tx ts : List Nat)
    (h : ∃ n, satNonce bc.difficulty
      (Block.mk (bc.tail.map (fun b => (b, hash_block b))) ts tx 0) n)
    (fuel : Nat) (hfuel : Nat.find h < fuel) :
    (bc.add fuel tx ts).isSome = true := by
  have hml := mineLoop_finds bc.difficulty _ (Nat.find h) (Nat.find_spec h)
    (fun k hk => Nat.find_min h hk) fuel 0 (Nat.zero_le _) (by omega)
  simp only [Blockchain.add, Blockchain.mine_block]
  rw [hml]
  rfl

/-- Witness for the amended C8 at difficulty 0. -/
theorem claim_add_returns_of_satisfiable_witness :
    ((Blockchain.new 0).add 1 [104] [117]).isSome = true := by
  have hex : ∃ n, satNonce (Blockchain.new 0).difficulty
      (Block.mk ((Blockchain.new 0).tail.map (fun b => (b, hash_block b))) [117] [104] 0) n :=
    ⟨0, by decide⟩
  exact claim_add_returns_of_satisfiable (Blockchain.new 0) [104] [117] hex 1
    (by rw [(Nat.find_eq_zero hex).mpr (by decide)]; exact Nat.one_pos)
